import Mathlib

/-!
# A verification model of the `pallet-nft` commodities ledger

This file embeds the ownership ledger of the `pallet-commodities` pallet
(`src/lib.rs`, trait interface in `src/nft.rs`) shallowly in Lean and proves
the specified properties of its three mutating operations.

Modelling decisions, each tied to the source:

* `AccountId` and `CommodityId` are modelled as `Nat`; the runtime's
  `T::AccountId::default()` is `ACCOUNT_DEFAULT = 0`.  `CommodityInfo` is
  modelled as `Nat` and the runtime hashing algorithm `T::Hashing::hash_of`
  as an arbitrary function parameter `hash_of : Nat → Nat`.
* Each Substrate `StorageMap` is a finite key-value store; we model it as an
  association list with unique keys.  `ValueQuery` lookups return the value
  type's default (`0` for `u64`/`u128` counters, `[]` for commodity vectors,
  `ACCOUNT_DEFAULT` for `AccountForCommodity`), exactly as in the pallet.
* `Vec::binary_search` is only ever applied by the pallet to the per-account
  commodity vectors, which it keeps sorted; `sortedInsert` models the
  `Err(pos) => insert` / `Ok(_) => skip` pattern of `mint`/`transfer`, and
  `sortedRemove?` models `binary_search(..).expect(..)` followed by
  `remove(pos)`, with `none` standing for the `expect` panic.
* Dispatch semantics: every `ensure!` early-returns before any storage write,
  so an operation is modelled in state-passing style
  `Ledger → Except Err α × Ledger`, errors returning the input state
  unchanged.  `burn` and `transfer` return `Option (...)`, `none` being the
  `expect` panic on a failed binary search.
* `Burned::mutate(|total| *total += 1)` on `u128` may wrap; we keep the
  modulus explicit.  The subtractions `total -= 1` / `*total -= 1` only run
  in states where the value is positive (proved below), so `Nat` truncated
  subtraction is faithful there.
-/

/-- Association-list lookup, first matching key (models `StorageMap::get`
returning `Some`/`None` before the `ValueQuery` default is applied). -/
def alookup {β : Type} : List (Nat × β) → Nat → Option β
  | [], _ => none
  | (k, v) :: rest, key => if key = k then some v else alookup rest key

/-- Association-list insert-or-replace (models `StorageMap::insert` and the
write-back of `StorageMap::mutate`). -/
def aupdate {β : Type} : List (Nat × β) → Nat → β → List (Nat × β)
  | [], key, val => [(key, val)]
  | (k, v) :: rest, key, val =>
    if key = k then (key, val) :: rest else (k, v) :: aupdate rest key val

/-- Association-list key removal (models `StorageMap::remove`). -/
def aremove {β : Type} : List (Nat × β) → Nat → List (Nat × β)
  | [], _ => []
  | (k, v) :: rest, key => if key = k then rest else (k, v) :: aremove rest key

/-- The keys of an association list. -/
def akeys {β : Type} (l : List (Nat × β)) : List Nat := l.map Prod.fst

/-- Sum of all stored values of a counter map. -/
def sumValues (l : List (Nat × Nat)) : Nat := (l.map Prod.snd).sum

/-- `commodities.binary_search(&id)` followed by `Err(pos) => insert(pos, id)`
and `Ok(_) => {}`, as in `mint` and the destination half of `transfer`;
on a sorted vector this is insertion at the sorted position, skipping
duplicates. -/
def sortedInsert : List Nat → Nat → List Nat
  | [], x => [x]
  | y :: ys, x =>
    if x < y then x :: y :: ys
    else if x = y then y :: ys
    else y :: sortedInsert ys x

/-- `commodities.binary_search(&id).expect(..)` followed by `remove(pos)`, as
in `burn` and the source half of `transfer`; `none` models the panic of the
`expect` when the id is absent from the sorted vector. -/
def sortedRemove? : List Nat → Nat → Option (List Nat)
  | [], _ => none
  | y :: ys, x =>
    if x = y then some ys
    else if x < y then none
    else (sortedRemove? ys x).map (y :: ·)

/-- Strictly ascending (hence duplicate-free) list of commodity ids. -/
def StrictSorted (l : List Nat) : Prop := List.Pairwise (· < ·) l

instance (l : List Nat) : Decidable (StrictSorted l) := by
  unfold StrictSorted; infer_instance

/-- `T::AccountId::default()`, the sentinel account of the `ValueQuery`
storage getter `account_for_commodity`. -/
def ACCOUNT_DEFAULT : Nat := 0

/-- The pallet's error enum (`Error<T>` in `src/lib.rs`). -/
inductive Err where
  | CommodityExists
  | NonexistentCommodity
  | NotCommodityOwner
  | TooManyCommodities
  | TooManyCommoditiesForAccount
  deriving DecidableEq, Repr

deriving instance DecidableEq for Except

/-- The pallet's configuration constants `CommodityLimit : Get<u128>` and
`UserCommodityLimit : Get<u64>`. -/
structure Config where
  commodityLimit : Nat
  userCommodityLimit : Nat
  deriving DecidableEq, Repr

/-- The pallet's storage: `Total`, `Burned`, `TotalForAccount`,
`CommoditiesForAccount`, `AccountForCommodity`. -/
structure Ledger where
  total : Nat
  burned : Nat
  totalForAccount : List (Nat × Nat)
  commoditiesForAccount : List (Nat × List Nat)
  accountForCommodity : List (Nat × Nat)
  deriving DecidableEq, Repr

/-- Genesis storage: every map empty, both counters at their defaults. -/
def Ledger.empty : Ledger := ⟨0, 0, [], [], []⟩

/-- Getter `total_for_account` (ValueQuery, default `0`). -/
def Ledger.countOf (s : Ledger) (a : Nat) : Nat :=
  (alookup s.totalForAccount a).getD 0

/-- Getter `commodities_for_account` (ValueQuery, default `Vec::new()`). -/
def Ledger.setsOf (s : Ledger) (a : Nat) : List Nat :=
  (alookup s.commoditiesForAccount a).getD []

/-- The raw `AccountForCommodity` entry for an id, before the `ValueQuery`
default is applied: `some` iff the id is present in storage. -/
def Ledger.ownerOpt (s : Ledger) (id : Nat) : Option Nat :=
  alookup s.accountForCommodity id

/-- Getter `account_for_commodity` = trait method `owner_of`: a `ValueQuery`
map, so an absent id yields `T::AccountId::default()`. -/
def Ledger.owner_of (s : Ledger) (id : Nat) : Nat :=
  (s.ownerOpt id).getD ACCOUNT_DEFAULT

/-- The four storage writes of a successful `mint`, in source order
(`Total`, `TotalForAccount`, `CommoditiesForAccount`, `AccountForCommodity`,
`src/lib.rs` lines 313-321). -/
def mintApply (s : Ledger) (owner commodity_id : Nat) : Ledger :=
  { total := s.total + 1
    burned := s.burned
    totalForAccount := aupdate s.totalForAccount owner (s.countOf owner + 1)
    commoditiesForAccount :=
      aupdate s.commoditiesForAccount owner
        (sortedInsert (s.setsOf owner) commodity_id)
    accountForCommodity := aupdate s.accountForCommodity commodity_id owner }

/-- `<Module<T> as UniqueAssets<_>>::mint` (`src/lib.rs` lines 292-324):
derive the id by hashing, run the three `ensure!` guards in source order,
then perform the four storage writes.  Errors return before any write. -/
def mint (cfg : Config) (hash_of : Nat → Nat) (s : Ledger) (owner : Nat)
    (info : Nat) : Except Err Nat × Ledger :=
  let commodity_id := hash_of info
  if (alookup s.accountForCommodity commodity_id).isSome then
    (.error .CommodityExists, s)
  else if ¬ s.countOf owner < cfg.userCommodityLimit then
    (.error .TooManyCommoditiesForAccount, s)
  else if ¬ s.total < cfg.commodityLimit then
    (.error .TooManyCommodities, s)
  else
    (.ok commodity_id, mintApply s owner commodity_id)

/-- `<Module<T> as UniqueAssets<_>>::burn` (`src/lib.rs` lines 326-347):
look the owner up via the `ValueQuery` getter, reject the default-account
sentinel as `NonexistentCommodity`, then decrement, remove from the sorted
vector (panicking — `none` — if the binary search fails) and erase the map
entry.  `Burned` wraps at `2^128` as `u128` addition would.  The five
storage writes of the success path are `burnApply`. -/
def burnApply (s : Ledger) (owner commodity_id : Nat) (rest : List Nat) :
    Ledger :=
  { total := s.total - 1
    burned := (s.burned + 1) % 2 ^ 128
    totalForAccount := aupdate s.totalForAccount owner (s.countOf owner - 1)
    commoditiesForAccount := aupdate s.commoditiesForAccount owner rest
    accountForCommodity := aremove s.accountForCommodity commodity_id }

def burn (s : Ledger) (commodity_id : Nat) : Option (Except Err Unit × Ledger) :=
  let owner := s.owner_of commodity_id
  if owner = ACCOUNT_DEFAULT then some (.error .NonexistentCommodity, s)
  else
    match sortedRemove? (s.setsOf owner) commodity_id with
    | none => none
    | some rest => some (.ok (), burnApply s owner commodity_id rest)

/-- `<Module<T> as UniqueAssets<_>>::transfer` (`src/lib.rs` lines 349-385):
sentinel-based existence check, destination cap check, then the five
sequential storage mutations in source order (each `mutate` reads the state
left by the previous one, which matters when `dest` is the current owner).
`none` models the `expect` panic on a failed binary search.  The five
sequential storage writes of the success path are `transferApply`. -/
def transferApply (s : Ledger) (owner dest commodity_id : Nat)
    (rest : List Nat) : Ledger :=
  let tfa1 := aupdate s.totalForAccount owner (s.countOf owner - 1)
  let tfa2 := aupdate tfa1 dest ((alookup tfa1 dest).getD 0 + 1)
  let cfa1 := aupdate s.commoditiesForAccount owner rest
  let cfa2 :=
    aupdate cfa1 dest (sortedInsert ((alookup cfa1 dest).getD []) commodity_id)
  { total := s.total
    burned := s.burned
    totalForAccount := tfa2
    commoditiesForAccount := cfa2
    accountForCommodity := aupdate s.accountForCommodity commodity_id dest }

def transfer (cfg : Config) (s : Ledger) (dest : Nat) (commodity_id : Nat) :
    Option (Except Err Unit × Ledger) :=
  let owner := s.owner_of commodity_id
  if owner = ACCOUNT_DEFAULT then some (.error .NonexistentCommodity, s)
  else if ¬ s.countOf dest < cfg.userCommodityLimit then
    some (.error .TooManyCommoditiesForAccount, s)
  else
    match sortedRemove? (s.setsOf owner) commodity_id with
    | none => none
    | some rest => some (.ok (), transferApply s owner dest commodity_id rest)

/-- States reachable from genesis by the pallet's three mutating operations
(the genesis `build` preload is itself a sequence of `mint`s). -/
inductive Reachable (cfg : Config) (hash_of : Nat → Nat) : Ledger → Prop where
  | empty : Reachable cfg hash_of Ledger.empty
  | mint (s : Ledger) (owner info id : Nat) (s' : Ledger) :
      Reachable cfg hash_of s →
      mint cfg hash_of s owner info = (.ok id, s') →
      Reachable cfg hash_of s'
  | burn (s : Ledger) (id : Nat) (s' : Ledger) :
      Reachable cfg hash_of s →
      burn s id = some (.ok (), s') →
      Reachable cfg hash_of s'
  | transfer (s : Ledger) (dest id : Nat) (s' : Ledger) :
      Reachable cfg hash_of s →
      transfer cfg s dest id = some (.ok (), s') →
      Reachable cfg hash_of s'

/-- The full inductive invariant of the ledger: the four specified views-in-
agreement clauses, the sortedness clause, the configured caps, plus the
storage-map well-formedness (unique keys) the other clauses rest on. -/
structure LedgerInv (cfg : Config) (s : Ledger) : Prop where
  keysT : (akeys s.totalForAccount).Nodup
  keysC : (akeys s.commoditiesForAccount).Nodup
  keysA : (akeys s.accountForCommodity).Nodup
  mem_iff : ∀ a id, id ∈ s.setsOf a ↔ s.ownerOpt id = some a
  count_eq : ∀ a, s.countOf a = (s.setsOf a).length
  len_eq : s.accountForCommodity.length = s.total
  sum_eq : sumValues s.totalForAccount = s.total
  sorted : ∀ a, StrictSorted (s.setsOf a)
  total_cap : s.total ≤ cfg.commodityLimit
  count_cap : ∀ a, s.countOf a ≤ cfg.userCommodityLimit

/-! ## Association-list lemmas -/

theorem alookup_aupdate_self {β : Type} (l : List (Nat × β)) (k : Nat)
    (v : β) : alookup (aupdate l k v) k = some v := by
  induction l with
  | nil => simp [aupdate, alookup]
  | cons p rest ih =>
    obtain ⟨k0, v0⟩ := p
    by_cases h : k = k0 <;> simp [aupdate, alookup, h, ih]

theorem alookup_aupdate_ne {β : Type} (l : List (Nat × β)) (k k' : Nat)
    (v : β) (h : k' ≠ k) : alookup (aupdate l k v) k' = alookup l k' := by
  induction l with
  | nil => simp [aupdate, alookup, h]
  | cons p rest ih =>
    obtain ⟨k0, v0⟩ := p
    by_cases h0 : k = k0
    · subst h0; simp [aupdate, alookup, h]
    · by_cases h1 : k' = k0 <;> simp [aupdate, alookup, h0, h1, ih]

theorem alookup_aremove_ne {β : Type} (l : List (Nat × β)) (k k' : Nat)
    (h : k' ≠ k) : alookup (aremove l k) k' = alookup l k' := by
  induction l with
  | nil => simp [aremove]
  | cons p rest ih =>
    obtain ⟨k0, v0⟩ := p
    by_cases h0 : k = k0
    · subst h0; simp [aremove, alookup, h]
    · by_cases h1 : k' = k0 <;> simp [aremove, alookup, h0, h1, ih]

theorem alookup_eq_none_of_not_mem {β : Type} (l : List (Nat × β)) (k : Nat)
    (h : k ∉ akeys l) : alookup l k = none := by
  induction l with
  | nil => simp [alookup]
  | cons p rest ih =>
    obtain ⟨k0, v0⟩ := p
    simp [akeys] at h
    simp [alookup, h.1, ih (by simpa [akeys] using h.2)]

theorem mem_akeys_of_alookup {β : Type} (l : List (Nat × β)) (k : Nat)
    (v : β) (h : alookup l k = some v) : k ∈ akeys l := by
  by_contra hk
  rw [alookup_eq_none_of_not_mem l k hk] at h
  exact Option.noConfusion h

theorem akeys_cons {β : Type} (k0 : Nat) (v0 : β) (rest : List (Nat × β)) :
    akeys ((k0, v0) :: rest) = k0 :: akeys rest := rfl

theorem alookup_aremove_self {β : Type} (l : List (Nat × β)) (k : Nat)
    (h : (akeys l).Nodup) : alookup (aremove l k) k = none := by
  induction l with
  | nil => simp [aremove, alookup]
  | cons p rest ih =>
    obtain ⟨k0, v0⟩ := p
    rw [akeys_cons] at h
    obtain ⟨h1, h2⟩ := List.nodup_cons.mp h
    by_cases h0 : k = k0
    · subst h0
      simpa [aremove] using alookup_eq_none_of_not_mem rest k h1
    · simp [aremove, alookup, h0, ih h2]

theorem mem_akeys_aupdate {β : Type} (l : List (Nat × β)) (k : Nat) (v : β)
    (a : Nat) : a ∈ akeys (aupdate l k v) ↔ a = k ∨ a ∈ akeys l := by
  induction l with
  | nil => simp [aupdate, akeys]
  | cons p rest ih =>
    obtain ⟨k0, v0⟩ := p
    by_cases h0 : k = k0
    · subst h0; simp [aupdate, akeys]
    · simp [aupdate, akeys, h0] at ih ⊢
      rw [ih]; tauto

theorem nodup_akeys_aupdate {β : Type} (l : List (Nat × β)) (k : Nat) (v : β)
    (h : (akeys l).Nodup) : (akeys (aupdate l k v)).Nodup := by
  induction l with
  | nil => simp [aupdate, akeys]
  | cons p rest ih =>
    obtain ⟨k0, v0⟩ := p
    rw [akeys_cons] at h
    obtain ⟨h1, h2⟩ := List.nodup_cons.mp h
    by_cases h0 : k = k0
    · subst h0
      rw [show aupdate ((k, v0) :: rest) k v = (k, v) :: rest by
            simp [aupdate], akeys_cons]
      exact List.nodup_cons.mpr ⟨h1, h2⟩
    · rw [show aupdate ((k0, v0) :: rest) k v = (k0, v0) :: aupdate rest k v by
            simp [aupdate, h0], akeys_cons]
      refine List.nodup_cons.mpr ⟨?_, ih h2⟩
      intro hmem
      rcases (mem_akeys_aupdate rest k v k0).mp hmem with h3 | h3
      · exact h0 h3.symm
      · exact h1 h3

theorem aremove_sublist {β : Type} (l : List (Nat × β)) (k : Nat) :
    (aremove l k).Sublist l := by
  induction l with
  | nil => simp [aremove]
  | cons p rest ih =>
    obtain ⟨k0, v0⟩ := p
    by_cases h0 : k = k0
    · simp only [aremove, if_pos h0]
      exact List.sublist_cons_self (k0, v0) rest
    · simpa [aremove, h0] using List.Sublist.cons₂ (k0, v0) ih

theorem nodup_akeys_aremove {β : Type} (l : List (Nat × β)) (k : Nat)
    (h : (akeys l).Nodup) : (akeys (aremove l k)).Nodup :=
  List.Nodup.sublist (List.Sublist.map Prod.fst (aremove_sublist l k)) h

theorem length_aupdate_mem {β : Type} (l : List (Nat × β)) (k : Nat) (v : β)
    (h : k ∈ akeys l) : (aupdate l k v).length = l.length := by
  induction l with
  | nil => simp [akeys] at h
  | cons p rest ih =>
    obtain ⟨k0, v0⟩ := p
    by_cases h0 : k = k0
    · simp [aupdate, h0]
    · simp [akeys, h0] at h
      simp [aupdate, h0, ih (by simpa [akeys] using h)]

theorem length_aupdate_not_mem {β : Type} (l : List (Nat × β)) (k : Nat)
    (v : β) (h : k ∉ akeys l) : (aupdate l k v).length = l.length + 1 := by
  induction l with
  | nil => simp [aupdate]
  | cons p rest ih =>
    obtain ⟨k0, v0⟩ := p
    simp [akeys] at h
    simp [aupdate, h.1, ih (by simpa [akeys] using h.2)]

theorem length_aremove_mem {β : Type} (l : List (Nat × β)) (k : Nat)
    (h : k ∈ akeys l) : (aremove l k).length + 1 = l.length := by
  induction l with
  | nil => simp [akeys] at h
  | cons p rest ih =>
    obtain ⟨k0, v0⟩ := p
    by_cases h0 : k = k0
    · simp [aremove, h0]
    · simp [akeys, h0] at h
      simp [aremove, h0, ih (by simpa [akeys] using h)]

theorem sumValues_aupdate (l : List (Nat × Nat)) (k v : Nat) :
    sumValues (aupdate l k v) + (alookup l k).getD 0 = sumValues l + v := by
  induction l with
  | nil => simp [aupdate, alookup, sumValues]
  | cons p rest ih =>
    obtain ⟨k0, v0⟩ := p
    by_cases h0 : k = k0
    · subst h0; simp [aupdate, alookup, sumValues]; omega
    · simp [aupdate, alookup, sumValues, h0] at ih ⊢
      omega

theorem aupdate_self {β : Type} (l : List (Nat × β)) (k : Nat) (v : β)
    (h : alookup l k = some v) : aupdate l k v = l := by
  induction l with
  | nil => simp [alookup] at h
  | cons p rest ih =>
    obtain ⟨k0, v0⟩ := p
    by_cases h0 : k = k0
    · subst h0
      simp [alookup] at h
      simp [aupdate, h]
    · simp [alookup, h0] at h
      simp [aupdate, h0, ih h]

theorem aupdate_aupdate {β : Type} (l : List (Nat × β)) (k : Nat) (v w : β) :
    aupdate (aupdate l k v) k w = aupdate l k w := by
  induction l with
  | nil => simp [aupdate]
  | cons p rest ih =>
    obtain ⟨k0, v0⟩ := p
    by_cases h0 : k = k0 <;> simp [aupdate, h0, ih]

/-! ## Sorted commodity-vector lemmas -/

theorem mem_sortedInsert (l : List Nat) (x a : Nat) :
    a ∈ sortedInsert l x ↔ a = x ∨ a ∈ l := by
  induction l with
  | nil => simp [sortedInsert]
  | cons y ys ih =>
    by_cases h1 : x < y
    · simp [sortedInsert, h1]
    · by_cases h2 : x = y
      · subst h2; simp [sortedInsert, h1]
      · simp [sortedInsert, h1, h2, ih]; tauto

theorem length_sortedInsert_of_not_mem (l : List Nat) (x : Nat) (h : x ∉ l) :
    (sortedInsert l x).length = l.length + 1 := by
  induction l with
  | nil => simp [sortedInsert]
  | cons y ys ih =>
    simp at h
    by_cases h1 : x < y
    · simp [sortedInsert, h1]
    · simp [sortedInsert, h1, h.1, ih h.2]

theorem sortedInsert_sorted (l : List Nat) (x : Nat) (h : StrictSorted l) :
    StrictSorted (sortedInsert l x) := by
  induction l with
  | nil => simp [sortedInsert, StrictSorted]
  | cons y ys ih =>
    obtain ⟨hy, hys⟩ := List.pairwise_cons.mp h
    by_cases h1 : x < y
    · rw [show sortedInsert (y :: ys) x = x :: y :: ys by simp [sortedInsert, h1]]
      exact List.pairwise_cons.mpr
        ⟨by intro b hb
            rcases List.mem_cons.mp hb with h2 | h2
            · exact h2 ▸ h1
            · exact lt_trans h1 (hy b h2), h⟩
    · by_cases h2 : x = y
      · subst h2
        rw [show sortedInsert (x :: ys) x = x :: ys by simp [sortedInsert, h1]]
        exact h
      · rw [show sortedInsert (y :: ys) x = y :: sortedInsert ys x by
              simp [sortedInsert, h1, h2]]
        refine List.pairwise_cons.mpr ⟨?_, ih hys⟩
        intro b hb
        rcases (mem_sortedInsert ys x b).mp hb with h3 | h3
        · subst h3; omega
        · exact hy b h3

theorem sortedInsert_of_forall_lt (l : List Nat) (x : Nat)
    (h : ∀ b ∈ l, x < b) : sortedInsert l x = x :: l := by
  cases l with
  | nil => rfl
  | cons y ys => simp [sortedInsert, h y (List.mem_cons_self y ys)]

theorem sortedRemove?_mem_of_some (l : List Nat) (x : Nat) (l' : List Nat)
    (h : sortedRemove? l x = some l') : x ∈ l := by
  induction l generalizing l' with
  | nil => simp [sortedRemove?] at h
  | cons y ys ih =>
    by_cases h1 : x = y
    · exact h1 ▸ List.mem_cons_self y ys
    · by_cases h2 : x < y
      · simp [sortedRemove?, h1, h2] at h
      · simp only [sortedRemove?, if_neg h1, if_neg h2, Option.map_eq_some'] at h
        obtain ⟨l'', h3, _⟩ := h
        exact List.mem_cons_of_mem y (ih l'' h3)

theorem sortedRemove?_length (l : List Nat) (x : Nat) (l' : List Nat)
    (h : sortedRemove? l x = some l') : l'.length + 1 = l.length := by
  induction l generalizing l' with
  | nil => simp [sortedRemove?] at h
  | cons y ys ih =>
    by_cases h1 : x = y
    · simp [sortedRemove?, h1] at h
      simp [← h]
    · by_cases h2 : x < y
      · simp [sortedRemove?, h1, h2] at h
      · simp only [sortedRemove?, if_neg h1, if_neg h2, Option.map_eq_some'] at h
        obtain ⟨l'', h3, h4⟩ := h
        subst h4
        simpa using ih l'' h3

theorem sortedRemove?_isSome (l : List Nat) (x : Nat) (hs : StrictSorted l)
    (hm : x ∈ l) : ∃ l', sortedRemove? l x = some l' := by
  induction l with
  | nil => simp at hm
  | cons y ys ih =>
    obtain ⟨hy, hys⟩ := List.pairwise_cons.mp hs
    by_cases h1 : x = y
    · exact ⟨ys, by simp [sortedRemove?, h1]⟩
    · have hxys : x ∈ ys := by
        rcases List.mem_cons.mp hm with h2 | h2
        · exact absurd h2 h1
        · exact h2
      have h2 : ¬ x < y := by
        have := hy x hxys
        omega
      obtain ⟨l'', h3⟩ := ih hys hxys
      exact ⟨y :: l'', by simp [sortedRemove?, h1, h2, h3]⟩

theorem sortedRemove?_mem_iff (l : List Nat) (x : Nat) (l' : List Nat)
    (hs : StrictSorted l) (h : sortedRemove? l x = some l') :
    ∀ a, a ∈ l' ↔ a ∈ l ∧ a ≠ x := by
  induction l generalizing l' with
  | nil => simp [sortedRemove?] at h
  | cons y ys ih =>
    obtain ⟨hy, hys⟩ := List.pairwise_cons.mp hs
    intro a
    by_cases h1 : x = y
    · subst h1
      simp [sortedRemove?] at h
      subst h
      constructor
      · intro ha
        exact ⟨List.mem_cons_of_mem x ha, by have := hy a ha; omega⟩
      · rintro ⟨ha, hax⟩
        rcases List.mem_cons.mp ha with h2 | h2
        · exact absurd h2 hax
        · exact h2
    · by_cases h2 : x < y
      · simp [sortedRemove?, h1, h2] at h
      · simp only [sortedRemove?, if_neg h1, if_neg h2, Option.map_eq_some'] at h
        obtain ⟨l'', h3, h4⟩ := h
        subst h4
        have hrec := ih l'' hys h3 a
        constructor
        · intro ha
          rcases List.mem_cons.mp ha with h5 | h5
          · subst h5
            exact ⟨List.mem_cons_self a ys, fun hax => h1 hax.symm⟩
          · obtain ⟨h6, h7⟩ := hrec.mp h5
            exact ⟨List.mem_cons_of_mem y h6, h7⟩
        · rintro ⟨ha, hax⟩
          rcases List.mem_cons.mp ha with h5 | h5
          · exact h5 ▸ List.mem_cons_self y l''
          · exact List.mem_cons_of_mem y (hrec.mpr ⟨h5, hax⟩)

theorem sortedRemove?_sorted (l : List Nat) (x : Nat) (l' : List Nat)
    (hs : StrictSorted l) (h : sortedRemove? l x = some l') :
    StrictSorted l' := by
  induction l generalizing l' with
  | nil => simp [sortedRemove?] at h
  | cons y ys ih =>
    obtain ⟨hy, hys⟩ := List.pairwise_cons.mp hs
    by_cases h1 : x = y
    · simp [sortedRemove?, h1] at h
      exact h ▸ hys
    · by_cases h2 : x < y
      · simp [sortedRemove?, h1, h2] at h
      · simp only [sortedRemove?, if_neg h1, if_neg h2, Option.map_eq_some'] at h
        obtain ⟨l'', h3, h4⟩ := h
        subst h4
        refine List.pairwise_cons.mpr ⟨?_, ih l'' hys h3⟩
        intro b hb
        exact hy b ((sortedRemove?_mem_iff ys x l'' hys h3 b).mp hb).1

theorem sortedInsert_sortedRemove? (l : List Nat) (x : Nat) (l' : List Nat)
    (hs : StrictSorted l) (h : sortedRemove? l x = some l') :
    sortedInsert l' x = l := by
  induction l generalizing l' with
  | nil => simp [sortedRemove?] at h
  | cons y ys ih =>
    obtain ⟨hy, hys⟩ := List.pairwise_cons.mp hs
    by_cases h1 : x = y
    · subst h1
      simp [sortedRemove?] at h
      subst h
      exact sortedInsert_of_forall_lt ys x hy
    · by_cases h2 : x < y
      · simp [sortedRemove?, h1, h2] at h
      · simp only [sortedRemove?, if_neg h1, if_neg h2, Option.map_eq_some'] at h
        obtain ⟨l'', h3, h4⟩ := h
        subst h4
        rw [show sortedInsert (y :: l'') x = y :: sortedInsert l'' x by
              simp [sortedInsert, h1, h2], ih l'' hys h3]

theorem sortedInsert_of_mem (l : List Nat) (x : Nat) (hs : StrictSorted l)
    (hm : x ∈ l) : sortedInsert l x = l := by
  induction l with
  | nil => simp at hm
  | cons y ys ih =>
    obtain ⟨hy, hys⟩ := List.pairwise_cons.mp hs
    by_cases h1 : x = y
    · simp [sortedInsert, h1]
    · have hxys : x ∈ ys := by
        rcases List.mem_cons.mp hm with h2 | h2
        · exact absurd h2 h1
        · exact h2
      have h2 : ¬ x < y := by have := hy x hxys; omega
      simp [sortedInsert, h1, h2, ih hys hxys]

/-! ## Post-state views of the three operations -/

theorem mintApply_countOf_self (s : Ledger) (owner id : Nat) :
    (mintApply s owner id).countOf owner = s.countOf owner + 1 := by
  simp [mintApply, Ledger.countOf, alookup_aupdate_self]

theorem mintApply_countOf_ne (s : Ledger) (owner id a : Nat) (h : a ≠ owner) :
    (mintApply s owner id).countOf a = s.countOf a := by
  simp [mintApply, Ledger.countOf, alookup_aupdate_ne _ _ _ _ h]

theorem mintApply_setsOf_self (s : Ledger) (owner id : Nat) :
    (mintApply s owner id).setsOf owner = sortedInsert (s.setsOf owner) id := by
  simp [mintApply, Ledger.setsOf, alookup_aupdate_self]

theorem mintApply_setsOf_ne (s : Ledger) (owner id a : Nat) (h : a ≠ owner) :
    (mintApply s owner id).setsOf a = s.setsOf a := by
  simp [mintApply, Ledger.setsOf, alookup_aupdate_ne _ _ _ _ h]

theorem mintApply_ownerOpt_self (s : Ledger) (owner id : Nat) :
    (mintApply s owner id).ownerOpt id = some owner := by
  simp [mintApply, Ledger.ownerOpt, alookup_aupdate_self]

theorem mintApply_ownerOpt_ne (s : Ledger) (owner id jd : Nat) (h : jd ≠ id) :
    (mintApply s owner id).ownerOpt jd = s.ownerOpt jd := by
  simp [mintApply, Ledger.ownerOpt, alookup_aupdate_ne _ _ _ _ h]

theorem burnApply_countOf_self (s : Ledger) (owner id : Nat)
    (rest : List Nat) :
    (burnApply s owner id rest).countOf owner = s.countOf owner - 1 := by
  simp [burnApply, Ledger.countOf, alookup_aupdate_self]

theorem burnApply_countOf_ne (s : Ledger) (owner id a : Nat)
    (rest : List Nat) (h : a ≠ owner) :
    (burnApply s owner id rest).countOf a = s.countOf a := by
  simp [burnApply, Ledger.countOf, alookup_aupdate_ne _ _ _ _ h]

theorem burnApply_setsOf_self (s : Ledger) (owner id : Nat)
    (rest : List Nat) : (burnApply s owner id rest).setsOf owner = rest := by
  simp [burnApply, Ledger.setsOf, alookup_aupdate_self]

theorem burnApply_setsOf_ne (s : Ledger) (owner id a : Nat)
    (rest : List Nat) (h : a ≠ owner) :
    (burnApply s owner id rest).setsOf a = s.setsOf a := by
  simp [burnApply, Ledger.setsOf, alookup_aupdate_ne _ _ _ _ h]

theorem burnApply_ownerOpt_self (s : Ledger) (owner id : Nat)
    (rest : List Nat) (h : (akeys s.accountForCommodity).Nodup) :
    (burnApply s owner id rest).ownerOpt id = none := by
  simp [burnApply, Ledger.ownerOpt, alookup_aremove_self _ _ h]

theorem burnApply_ownerOpt_ne (s : Ledger) (owner id jd : Nat)
    (rest : List Nat) (h : jd ≠ id) :
    (burnApply s owner id rest).ownerOpt jd = s.ownerOpt jd := by
  simp [burnApply, Ledger.ownerOpt, alookup_aremove_ne _ _ _ h]

theorem transferApply_total (s : Ledger) (owner dest id : Nat)
    (rest : List Nat) : (transferApply s owner dest id rest).total = s.total :=
  rfl

theorem transferApply_burned (s : Ledger) (owner dest id : Nat)
    (rest : List Nat) :
    (transferApply s owner dest id rest).burned = s.burned := rfl

theorem transferApply_countOf_dest (s : Ledger) (owner dest id : Nat)
    (rest : List Nat) (h : dest ≠ owner) :
    (transferApply s owner dest id rest).countOf dest = s.countOf dest + 1 := by
  simp [transferApply, Ledger.countOf, alookup_aupdate_self,
    alookup_aupdate_ne _ _ _ _ h]

theorem transferApply_countOf_owner (s : Ledger) (owner dest id : Nat)
    (rest : List Nat) (h : owner ≠ dest) :
    (transferApply s owner dest id rest).countOf owner =
      s.countOf owner - 1 := by
  simp [transferApply, Ledger.countOf, alookup_aupdate_ne _ _ _ _ h,
    alookup_aupdate_self]

theorem transferApply_countOf_ne (s : Ledger) (owner dest id a : Nat)
    (rest : List Nat) (h1 : a ≠ owner) (h2 : a ≠ dest) :
    (transferApply s owner dest id rest).countOf a = s.countOf a := by
  simp [transferApply, Ledger.countOf, alookup_aupdate_ne _ _ _ _ h1,
    alookup_aupdate_ne _ _ _ _ h2]

theorem transferApply_setsOf_dest (s : Ledger) (owner dest id : Nat)
    (rest : List Nat) (h : dest ≠ owner) :
    (transferApply s owner dest id rest).setsOf dest =
      sortedInsert (s.setsOf dest) id := by
  simp [transferApply, Ledger.setsOf, alookup_aupdate_self,
    alookup_aupdate_ne _ _ _ _ h]

theorem transferApply_setsOf_owner (s : Ledger) (owner dest id : Nat)
    (rest : List Nat) (h : owner ≠ dest) :
    (transferApply s owner dest id rest).setsOf owner = rest := by
  simp [transferApply, Ledger.setsOf, alookup_aupdate_ne _ _ _ _ h,
    alookup_aupdate_self]

theorem transferApply_setsOf_ne (s : Ledger) (owner dest id a : Nat)
    (rest : List Nat) (h1 : a ≠ owner) (h2 : a ≠ dest) :
    (transferApply s owner dest id rest).setsOf a = s.setsOf a := by
  simp [transferApply, Ledger.setsOf, alookup_aupdate_ne _ _ _ _ h1,
    alookup_aupdate_ne _ _ _ _ h2]

theorem transferApply_ownerOpt_self (s : Ledger) (owner dest id : Nat)
    (rest : List Nat) :
    (transferApply s owner dest id rest).ownerOpt id = some dest := by
  simp [transferApply, Ledger.ownerOpt, alookup_aupdate_self]

theorem transferApply_ownerOpt_ne (s : Ledger) (owner dest id jd : Nat)
    (rest : List Nat) (h : jd ≠ id) :
    (transferApply s owner dest id rest).ownerOpt jd = s.ownerOpt jd := by
  simp [transferApply, Ledger.ownerOpt, alookup_aupdate_ne _ _ _ _ h]

/-! ## Success / failure characterisations of the three operations -/

theorem mint_ok_elim (cfg : Config) (hash_of : Nat → Nat) (s : Ledger)
    (owner info id : Nat) (s' : Ledger)
    (hm : mint cfg hash_of s owner info = (.ok id, s')) :
    id = hash_of info ∧ alookup s.accountForCommodity id = none ∧
      s.countOf owner < cfg.userCommodityLimit ∧
      s.total < cfg.commodityLimit ∧ s' = mintApply s owner id := by
  by_cases h1 : (alookup s.accountForCommodity (hash_of info)).isSome
  · simp [mint, h1, Prod.ext_iff] at hm
  · by_cases h2 : s.countOf owner < cfg.userCommodityLimit
    · by_cases h3 : s.total < cfg.commodityLimit
      · simp [mint, h1, h2, h3, Prod.ext_iff] at hm
        obtain ⟨hid, hs⟩ := hm
        refine ⟨hid.symm, ?_, h2, h3, ?_⟩
        · rw [hid.symm]
          exact Option.not_isSome_iff_eq_none.mp h1
        · rw [← hs, hid]
      · simp [mint, h1, h2, h3, Prod.ext_iff] at hm
    · simp [mint, h1, h2, Prod.ext_iff] at hm

theorem mint_ok_intro (cfg : Config) (hash_of : Nat → Nat) (s : Ledger)
    (owner info : Nat)
    (h1 : alookup s.accountForCommodity (hash_of info) = none)
    (h2 : s.countOf owner < cfg.userCommodityLimit)
    (h3 : s.total < cfg.commodityLimit) :
    mint cfg hash_of s owner info =
      (.ok (hash_of info), mintApply s owner (hash_of info)) := by
  simp [mint, h1, h2, h3]

theorem burn_err_of_sentinel (s : Ledger) (id : Nat)
    (h : s.owner_of id = ACCOUNT_DEFAULT) :
    burn s id = some (.error .NonexistentCommodity, s) := by
  simp [burn, h]

theorem burn_ok_elim (s : Ledger) (id : Nat) (s' : Ledger)
    (hb : burn s id = some (.ok (), s')) :
    s.owner_of id ≠ ACCOUNT_DEFAULT ∧
      ∃ rest, sortedRemove? (s.setsOf (s.owner_of id)) id = some rest ∧
        s' = burnApply s (s.owner_of id) id rest := by
  by_cases h1 : s.owner_of id = ACCOUNT_DEFAULT
  · simp [burn, h1] at hb
  · refine ⟨h1, ?_⟩
    rcases hr : sortedRemove? (s.setsOf (s.owner_of id)) id with _ | rest
    · simp [burn, h1, hr] at hb
    · simp [burn, h1, hr] at hb
      exact ⟨rest, rfl, hb.symm⟩

theorem burn_ok_intro (s : Ledger) (id : Nat) (rest : List Nat)
    (h1 : s.owner_of id ≠ ACCOUNT_DEFAULT)
    (hr : sortedRemove? (s.setsOf (s.owner_of id)) id = some rest) :
    burn s id = some (.ok (), burnApply s (s.owner_of id) id rest) := by
  simp [burn, h1, hr]

theorem transfer_err_of_sentinel (cfg : Config) (s : Ledger) (dest id : Nat)
    (h : s.owner_of id = ACCOUNT_DEFAULT) :
    transfer cfg s dest id = some (.error .NonexistentCommodity, s) := by
  simp [transfer, h]

theorem transfer_err_of_cap (cfg : Config) (s : Ledger) (dest id : Nat)
    (h1 : s.owner_of id ≠ ACCOUNT_DEFAULT)
    (h2 : ¬ s.countOf dest < cfg.userCommodityLimit) :
    transfer cfg s dest id = some (.error .TooManyCommoditiesForAccount, s) := by
  simp [transfer, h1, h2]

theorem transfer_ok_elim (cfg : Config) (s : Ledger) (dest id : Nat)
    (s' : Ledger) (hm : transfer cfg s dest id = some (.ok (), s')) :
    s.owner_of id ≠ ACCOUNT_DEFAULT ∧
      s.countOf dest < cfg.userCommodityLimit ∧
      ∃ rest, sortedRemove? (s.setsOf (s.owner_of id)) id = some rest ∧
        s' = transferApply s (s.owner_of id) dest id rest := by
  by_cases h1 : s.owner_of id = ACCOUNT_DEFAULT
  · simp [transfer, h1] at hm
  · by_cases h2 : s.countOf dest < cfg.userCommodityLimit
    · refine ⟨h1, h2, ?_⟩
      rcases hr : sortedRemove? (s.setsOf (s.owner_of id)) id with _ | rest
      · simp [transfer, h1, h2, hr] at hm
      · simp [transfer, h1, h2, hr] at hm
        exact ⟨rest, rfl, hm.symm⟩
    · simp [transfer, h1, h2] at hm

theorem transfer_ok_intro (cfg : Config) (s : Ledger) (dest id : Nat)
    (rest : List Nat) (h1 : s.owner_of id ≠ ACCOUNT_DEFAULT)
    (h2 : s.countOf dest < cfg.userCommodityLimit)
    (hr : sortedRemove? (s.setsOf (s.owner_of id)) id = some rest) :
    transfer cfg s dest id =
      some (.ok (), transferApply s (s.owner_of id) dest id rest) := by
  simp [transfer, h1, h2, hr]

/-! ## Invariant preservation -/

theorem alookup_isSome_of_mem_akeys {β : Type} (l : List (Nat × β)) (k : Nat)
    (h : k ∈ akeys l) : (alookup l k).isSome := by
  induction l with
  | nil => simp [akeys] at h
  | cons p rest ih =>
    obtain ⟨k0, v0⟩ := p
    by_cases h0 : k = k0
    · simp [alookup, h0]
    · rw [akeys_cons] at h
      rcases List.mem_cons.mp h with h1 | h1
      · exact absurd h1 h0
      · simp [alookup, h0, ih h1]

theorem not_mem_akeys_of_alookup_none {β : Type} (l : List (Nat × β))
    (k : Nat) (h : alookup l k = none) : k ∉ akeys l := by
  intro hmem
  have hsome := alookup_isSome_of_mem_akeys l k hmem
  rw [h] at hsome
  exact Bool.noConfusion hsome

theorem ownerOpt_of_owner_of_ne (s : Ledger) (id : Nat)
    (h : s.owner_of id ≠ ACCOUNT_DEFAULT) :
    s.ownerOpt id = some (s.owner_of id) := by
  rcases ho : s.ownerOpt id with _ | a
  · exact absurd (by simp [Ledger.owner_of, ho]) h
  · simp [Ledger.owner_of, ho]

theorem mint_inv (cfg : Config) (hash_of : Nat → Nat) (s : Ledger)
    (owner info id : Nat) (s' : Ledger) (hInv : LedgerInv cfg s)
    (hm : mint cfg hash_of s owner info = (.ok id, s')) :
    LedgerInv cfg s' := by
  obtain ⟨hid, hnone, hcnt, htot, hs'⟩ := mint_ok_elim _ _ _ _ _ _ _ hm
  subst hs'
  have hnotmem : ∀ a, id ∉ s.setsOf a := by
    intro a hmem
    have h2 := (hInv.mem_iff a id).mp hmem
    simp [Ledger.ownerOpt, hnone] at h2
  have hkeysA : id ∉ akeys s.accountForCommodity :=
    not_mem_akeys_of_alookup_none _ _ hnone
  constructor
  case keysT => exact nodup_akeys_aupdate _ _ _ hInv.keysT
  case keysC => exact nodup_akeys_aupdate _ _ _ hInv.keysC
  case keysA => exact nodup_akeys_aupdate _ _ _ hInv.keysA
  case mem_iff =>
    intro a jd
    by_cases ha : a = owner
    · subst ha
      by_cases hj : jd = id
      · subst hj
        rw [mintApply_setsOf_self, mintApply_ownerOpt_self]
        simp [mem_sortedInsert]
      · rw [mintApply_setsOf_self, mintApply_ownerOpt_ne _ _ _ _ hj,
          mem_sortedInsert]
        simp [hj, hInv.mem_iff a jd]
    · by_cases hj : jd = id
      · subst hj
        rw [mintApply_setsOf_ne _ _ _ _ ha, mintApply_ownerOpt_self]
        constructor
        · intro hmem
          exact absurd hmem (hnotmem a)
        · intro heq
          exact (ha (Option.some.inj heq).symm).elim
      · rw [mintApply_setsOf_ne _ _ _ _ ha, mintApply_ownerOpt_ne _ _ _ _ hj]
        exact hInv.mem_iff a jd
  case count_eq =>
    intro a
    by_cases ha : a = owner
    · subst ha
      rw [mintApply_countOf_self, mintApply_setsOf_self,
        length_sortedInsert_of_not_mem _ _ (hnotmem a), hInv.count_eq a]
    · rw [mintApply_countOf_ne _ _ _ _ ha, mintApply_setsOf_ne _ _ _ _ ha]
      exact hInv.count_eq a
  case len_eq =>
    show (aupdate s.accountForCommodity id owner).length = s.total + 1
    rw [length_aupdate_not_mem _ _ _ hkeysA, hInv.len_eq]
  case sum_eq =>
    show sumValues (aupdate s.totalForAccount owner (s.countOf owner + 1)) =
      s.total + 1
    have := sumValues_aupdate s.totalForAccount owner (s.countOf owner + 1)
    have hc : (alookup s.totalForAccount owner).getD 0 = s.countOf owner := rfl
    rw [hc] at this
    have hsum := hInv.sum_eq
    omega
  case sorted =>
    intro a
    by_cases ha : a = owner
    · subst ha
      rw [mintApply_setsOf_self]
      exact sortedInsert_sorted _ _ (hInv.sorted a)
    · rw [mintApply_setsOf_ne _ _ _ _ ha]
      exact hInv.sorted a
  case total_cap =>
    show s.total + 1 ≤ cfg.commodityLimit
    omega
  case count_cap =>
    intro a
    by_cases ha : a = owner
    · subst ha
      rw [mintApply_countOf_self]
      omega
    · rw [mintApply_countOf_ne _ _ _ _ ha]
      exact hInv.count_cap a

theorem burn_inv (cfg : Config) (s : Ledger) (id : Nat) (s' : Ledger)
    (hInv : LedgerInv cfg s) (hb : burn s id = some (.ok (), s')) :
    LedgerInv cfg s' := by
  obtain ⟨hown, rest, hr, hs'⟩ := burn_ok_elim _ _ _ hb
  subst hs'
  set ow := s.owner_of id with how
  have hOpt : s.ownerOpt id = some ow := ownerOpt_of_owner_of_ne _ _ hown
  have hmem : id ∈ s.setsOf ow := (hInv.mem_iff ow id).mpr hOpt
  have hsorted := hInv.sorted ow
  have hrm := sortedRemove?_mem_iff _ _ _ hsorted hr
  have hrl := sortedRemove?_length _ _ _ hr
  have hrs := sortedRemove?_sorted _ _ _ hsorted hr
  have hc1 : 1 ≤ s.countOf ow := by
    rw [hInv.count_eq ow]
    omega
  have hkeysA : id ∈ akeys s.accountForCommodity :=
    mem_akeys_of_alookup _ _ _ hOpt
  have hlenA := length_aremove_mem _ _ hkeysA
  have htot1 : 1 ≤ s.total := by
    have := hInv.len_eq
    omega
  constructor
  case keysT => exact nodup_akeys_aupdate _ _ _ hInv.keysT
  case keysC => exact nodup_akeys_aupdate _ _ _ hInv.keysC
  case keysA => exact nodup_akeys_aremove _ _ hInv.keysA
  case mem_iff =>
    intro a jd
    by_cases ha : a = ow
    · subst ha
      by_cases hj : jd = id
      · subst hj
        rw [burnApply_setsOf_self, burnApply_ownerOpt_self _ _ _ _ hInv.keysA]
        simp [hrm jd]
      · rw [burnApply_setsOf_self, burnApply_ownerOpt_ne _ _ _ _ _ hj,
          hrm jd]
        simp [hj, hInv.mem_iff ow jd]
    · by_cases hj : jd = id
      · subst hj
        rw [burnApply_setsOf_ne _ _ _ _ _ ha,
          burnApply_ownerOpt_self _ _ _ _ hInv.keysA]
        constructor
        · intro hjm
          have h2 := (hInv.mem_iff a jd).mp hjm
          rw [hOpt] at h2
          exact (ha (Option.some.inj h2).symm).elim
        · intro heq
          exact Option.noConfusion heq
      · rw [burnApply_setsOf_ne _ _ _ _ _ ha,
          burnApply_ownerOpt_ne _ _ _ _ _ hj]
        exact hInv.mem_iff a jd
  case count_eq =>
    intro a
    by_cases ha : a = ow
    · subst ha
      rw [burnApply_countOf_self, burnApply_setsOf_self, hInv.count_eq ow]
      omega
    · rw [burnApply_countOf_ne _ _ _ _ _ ha, burnApply_setsOf_ne _ _ _ _ _ ha]
      exact hInv.count_eq a
  case len_eq =>
    show (aremove s.accountForCommodity id).length = s.total - 1
    have := hInv.len_eq
    omega
  case sum_eq =>
    show sumValues (aupdate s.totalForAccount ow (s.countOf ow - 1)) =
      s.total - 1
    have := sumValues_aupdate s.totalForAccount ow (s.countOf ow - 1)
    have hcd : (alookup s.totalForAccount ow).getD 0 = s.countOf ow := rfl
    rw [hcd] at this
    have hsum := hInv.sum_eq
    omega
  case sorted =>
    intro a
    by_cases ha : a = ow
    · subst ha
      rw [burnApply_setsOf_self]
      exact hrs
    · rw [burnApply_setsOf_ne _ _ _ _ _ ha]
      exact hInv.sorted a
  case total_cap =>
    show s.total - 1 ≤ cfg.commodityLimit
    have := hInv.total_cap
    omega
  case count_cap =>
    intro a
    by_cases ha : a = ow
    · subst ha
      rw [burnApply_countOf_self]
      have := hInv.count_cap ow
      omega
    · rw [burnApply_countOf_ne _ _ _ _ _ ha]
      exact hInv.count_cap a

theorem countOf_alookup_some (s : Ledger) (a : Nat) (h : 1 ≤ s.countOf a) :
    alookup s.totalForAccount a = some (s.countOf a) := by
  rcases hl : alookup s.totalForAccount a with _ | c
  · rw [Ledger.countOf, hl] at h
    simp at h
  · simp [Ledger.countOf, hl]

theorem setsOf_alookup_some (s : Ledger) (a : Nat) (id : Nat)
    (h : id ∈ s.setsOf a) :
    alookup s.commoditiesForAccount a = some (s.setsOf a) := by
  rcases hl : alookup s.commoditiesForAccount a with _ | l
  · rw [Ledger.setsOf, hl] at h
    simp at h
  · simp [Ledger.setsOf, hl]

/-- A self-transfer (`dest` is the current owner) that passes both guards
commits five writes that each restore what the previous one changed, leaving
the storage exactly as it was. -/
theorem transfer_self_noop (cfg : Config) (s : Ledger) (id : Nat)
    (hInv : LedgerInv cfg s) (h1 : s.owner_of id ≠ ACCOUNT_DEFAULT)
    (h2 : s.countOf (s.owner_of id) < cfg.userCommodityLimit) :
    transfer cfg s (s.owner_of id) id = some (.ok (), s) := by
  set ow := s.owner_of id with how
  have hOpt : s.ownerOpt id = some ow := ownerOpt_of_owner_of_ne _ _ h1
  have hmem : id ∈ s.setsOf ow := (hInv.mem_iff ow id).mpr hOpt
  have hsorted := hInv.sorted ow
  obtain ⟨rest, hr⟩ := sortedRemove?_isSome _ _ hsorted hmem
  have hc1 : 1 ≤ s.countOf ow := by
    have := hInv.count_eq ow
    have := List.length_pos.mpr (List.ne_nil_of_mem hmem)
    omega
  rw [transfer_ok_intro cfg s ow id rest h1 h2 hr]
  have happly : transferApply s ow ow id rest = s := by
    have hT := countOf_alookup_some s ow hc1
    have hC := setsOf_alookup_some s ow id hmem
    have hA : alookup s.accountForCommodity id = some ow := hOpt
    simp only [transferApply]
    rw [alookup_aupdate_self, alookup_aupdate_self]
    simp only [Option.getD_some]
    rw [show s.countOf ow - 1 + 1 = s.countOf ow by omega,
      aupdate_aupdate, aupdate_self _ _ _ hT,
      sortedInsert_sortedRemove? _ _ _ hsorted hr,
      aupdate_aupdate, aupdate_self _ _ _ hC, aupdate_self _ _ _ hA]
  rw [happly]

theorem transferApply_totalForAccount (s : Ledger) (ow dest id : Nat)
    (rest : List Nat) :
    (transferApply s ow dest id rest).totalForAccount =
      aupdate (aupdate s.totalForAccount ow (s.countOf ow - 1)) dest
        ((alookup (aupdate s.totalForAccount ow (s.countOf ow - 1))
            dest).getD 0 + 1) := rfl

theorem transferApply_commoditiesForAccount (s : Ledger) (ow dest id : Nat)
    (rest : List Nat) :
    (transferApply s ow dest id rest).commoditiesForAccount =
      aupdate (aupdate s.commoditiesForAccount ow rest) dest
        (sortedInsert
          ((alookup (aupdate s.commoditiesForAccount ow rest) dest).getD [])
          id) := rfl

theorem transferApply_accountForCommodity (s : Ledger) (ow dest id : Nat)
    (rest : List Nat) :
    (transferApply s ow dest id rest).accountForCommodity =
      aupdate s.accountForCommodity id dest := rfl

theorem transfer_inv (cfg : Config) (s : Ledger) (dest id : Nat) (s' : Ledger)
    (hInv : LedgerInv cfg s) (ht : transfer cfg s dest id = some (.ok (), s')) :
    LedgerInv cfg s' := by
  obtain ⟨hown, hcap, rest, hr, hs'⟩ := transfer_ok_elim _ _ _ _ _ ht
  set ow := s.owner_of id with how
  by_cases hod : dest = ow
  · rw [hod] at ht hcap
    rw [transfer_self_noop cfg s id hInv hown hcap] at ht
    simp at ht
    rw [← ht]
    exact hInv
  · subst hs'
    have hdo : dest ≠ ow := hod
    have hodw : ow ≠ dest := fun hh => hod hh.symm
    have hOpt : s.ownerOpt id = some ow := ownerOpt_of_owner_of_ne _ _ hown
    have hmem : id ∈ s.setsOf ow := (hInv.mem_iff ow id).mpr hOpt
    have hsorted := hInv.sorted ow
    have hrm := sortedRemove?_mem_iff _ _ _ hsorted hr
    have hrl := sortedRemove?_length _ _ _ hr
    have hrs := sortedRemove?_sorted _ _ _ hsorted hr
    have hc1 : 1 ≤ s.countOf ow := by
      have := hInv.count_eq ow
      omega
    have hnotmemd : id ∉ s.setsOf dest := by
      intro hmd
      have h2 := (hInv.mem_iff dest id).mp hmd
      rw [hOpt] at h2
      exact hdo (Option.some.inj h2).symm
    have hkeysA : id ∈ akeys s.accountForCommodity :=
      mem_akeys_of_alookup _ _ _ hOpt
    refine ⟨?_, ?_, ?_, ?_, ?_, ?_, ?_, ?_, ?_, ?_⟩
    ·
      rw [transferApply_totalForAccount]
      exact nodup_akeys_aupdate _ _ _ (nodup_akeys_aupdate _ _ _ hInv.keysT)
    ·
      rw [transferApply_commoditiesForAccount]
      exact nodup_akeys_aupdate _ _ _ (nodup_akeys_aupdate _ _ _ hInv.keysC)
    ·
      rw [transferApply_accountForCommodity]
      exact nodup_akeys_aupdate _ _ _ hInv.keysA
    ·
      intro a jd
      by_cases ha : a = dest
      · subst ha
        by_cases hj : jd = id
        · subst hj
          rw [transferApply_setsOf_dest _ _ _ _ _ hdo,
            transferApply_ownerOpt_self]
          simp [mem_sortedInsert]
        · rw [transferApply_setsOf_dest _ _ _ _ _ hdo,
            transferApply_ownerOpt_ne _ _ _ _ _ _ hj, mem_sortedInsert]
          simp [hj, hInv.mem_iff a jd]
      · by_cases ha2 : a = ow
        · subst ha2
          by_cases hj : jd = id
          · subst hj
            rw [transferApply_setsOf_owner _ _ _ _ _ hodw,
              transferApply_ownerOpt_self]
            constructor
            · intro hjm
              exact absurd ((hrm jd).mp hjm).2 (by simp)
            · intro heq
              exact (hdo (Option.some.inj heq)).elim
          · rw [transferApply_setsOf_owner _ _ _ _ _ hodw,
              transferApply_ownerOpt_ne _ _ _ _ _ _ hj, hrm jd]
            simp [hj, hInv.mem_iff ow jd]
        · by_cases hj : jd = id
          · subst hj
            rw [transferApply_setsOf_ne _ _ _ _ _ _ ha2 ha,
              transferApply_ownerOpt_self]
            constructor
            · intro hjm
              have h2 := (hInv.mem_iff a jd).mp hjm
              rw [hOpt] at h2
              exact (ha2 (Option.some.inj h2).symm).elim
            · intro heq
              exact (ha (Option.some.inj heq).symm).elim
          · rw [transferApply_setsOf_ne _ _ _ _ _ _ ha2 ha,
              transferApply_ownerOpt_ne _ _ _ _ _ _ hj]
            exact hInv.mem_iff a jd
    ·
      intro a
      by_cases ha : a = dest
      · subst ha
        rw [transferApply_countOf_dest _ _ _ _ _ hdo,
          transferApply_setsOf_dest _ _ _ _ _ hdo,
          length_sortedInsert_of_not_mem _ _ hnotmemd, hInv.count_eq a]
      · by_cases ha2 : a = ow
        · subst ha2
          rw [transferApply_countOf_owner _ _ _ _ _ hodw,
            transferApply_setsOf_owner _ _ _ _ _ hodw, hInv.count_eq ow]
          omega
        · rw [transferApply_countOf_ne _ _ _ _ _ _ ha2 ha,
            transferApply_setsOf_ne _ _ _ _ _ _ ha2 ha]
          exact hInv.count_eq a
    ·
      rw [transferApply_accountForCommodity, transferApply_total,
        length_aupdate_mem _ _ _ hkeysA, hInv.len_eq]
    ·
      rw [transferApply_totalForAccount, transferApply_total]
      have e1 := sumValues_aupdate s.totalForAccount ow (s.countOf ow - 1)
      have e2 := sumValues_aupdate
        (aupdate s.totalForAccount ow (s.countOf ow - 1)) dest
        ((alookup (aupdate s.totalForAccount ow (s.countOf ow - 1))
            dest).getD 0 + 1)
      have hcd : (alookup s.totalForAccount ow).getD 0 = s.countOf ow := rfl
      rw [hcd] at e1
      have hsum := hInv.sum_eq
      omega
    ·
      intro a
      by_cases ha : a = dest
      · subst ha
        rw [transferApply_setsOf_dest _ _ _ _ _ hdo]
        exact sortedInsert_sorted _ _ (hInv.sorted a)
      · by_cases ha2 : a = ow
        · subst ha2
          rw [transferApply_setsOf_owner _ _ _ _ _ hodw]
          exact hrs
        · rw [transferApply_setsOf_ne _ _ _ _ _ _ ha2 ha]
          exact hInv.sorted a
    ·
      rw [transferApply_total]
      exact hInv.total_cap
    ·
      intro a
      by_cases ha : a = dest
      · subst ha
        rw [transferApply_countOf_dest _ _ _ _ _ hdo]
        omega
      · by_cases ha2 : a = ow
        · subst ha2
          rw [transferApply_countOf_owner _ _ _ _ _ hodw]
          have := hInv.count_cap ow
          omega
        · rw [transferApply_countOf_ne _ _ _ _ _ _ ha2 ha]
          exact hInv.count_cap a

theorem empty_inv (cfg : Config) : LedgerInv cfg Ledger.empty := by
  constructor
  case keysT => simp [Ledger.empty, akeys]
  case keysC => simp [Ledger.empty, akeys]
  case keysA => simp [Ledger.empty, akeys]
  case mem_iff =>
    intro a id
    simp [Ledger.empty, Ledger.setsOf, Ledger.ownerOpt, alookup]
  case count_eq =>
    intro a
    simp [Ledger.empty, Ledger.countOf, Ledger.setsOf, alookup]
  case len_eq => rfl
  case sum_eq => rfl
  case sorted =>
    intro a
    simp [Ledger.empty, Ledger.setsOf, alookup, StrictSorted]
  case total_cap => exact Nat.zero_le _
  case count_cap =>
    intro a
    simp [Ledger.empty, Ledger.countOf, alookup]

/-- Every state reachable from genesis satisfies the full ledger
invariant. -/
theorem reachable_inv (cfg : Config) (hash_of : Nat → Nat) (s : Ledger)
    (h : Reachable cfg hash_of s) : LedgerInv cfg s := by
  induction h with
  | empty => exact empty_inv cfg
  | mint s owner info id s' _ hm ih => exact mint_inv _ _ _ _ _ _ _ ih hm
  | burn s id s' _ hb ih => exact burn_inv _ _ _ _ ih hb
  | transfer s dest id s' _ ht ih => exact transfer_inv _ _ _ _ _ ih ht

/-! ## Concrete fixtures (mirroring the mock runtime: `CommodityLimit = 5`,
`UserCommodityLimit = 2`, small account ids, the hash modelled as the
identity on the already-distinct test payloads) -/

def hashId : Nat → Nat := fun n => n

def cfgA : Config := ⟨5, 2⟩

def cfgU1 : Config := ⟨5, 1⟩

def cfgT1 : Config := ⟨1, 5⟩

/-- Account `1` owns commodity `7`. -/
def ledger1 : Ledger := (mint cfgA hashId Ledger.empty 1 7).2

/-- Account `1` owns commodities `7` and `8` (at the user cap of `cfgA`). -/
def ledger2 : Ledger := (mint cfgA hashId ledger1 1 8).2

/-- One commodity minted under a global cap of 1. -/
def ledgerT1 : Ledger := (mint cfgT1 hashId Ledger.empty 1 7).2

/-- Account `1` owns commodity `7`, at the user cap of `cfgU1`. -/
def ledgerU1 : Ledger := (mint cfgU1 hashId Ledger.empty 1 7).2

/-- The default account `0` owns commodity `7`. -/
def ledger0 : Ledger := (mint cfgA hashId Ledger.empty 0 7).2

/-- `ledger1` after transferring commodity `7` to the default account. -/
def ledgerB : Ledger :=
  ((transfer cfgA ledger1 0 7).getD (.ok (), Ledger.empty)).2

/-- `ledger1` after transferring commodity `7` to account `2`. -/
def ledgerC : Ledger :=
  ((transfer cfgA ledger1 2 7).getD (.ok (), Ledger.empty)).2

/-! ## The claims -/

/-- C1: every public mutating operation (mint, burn, transfer) preserves the
four ledger invariants — (1) `id ∈ ownedSet[a] ⇔ ownerOf[id] = a`,
(2) `perOwnerCount[a] = |ownedSet[a]|`, (3) `totalSupply` equals the number
of `ownerOf` entries and the sum of `perOwnerCount`, (4) each `ownedSet[a]`
is strictly ascending with unique elements — so they hold in every state
reachable from the empty ledger. -/
theorem claim1_invariants (cfg : Config) (hash_of : Nat → Nat) (s : Ledger)
    (h : Reachable cfg hash_of s) :
    (∀ a id, id ∈ s.setsOf a ↔ s.ownerOpt id = some a) ∧
      (∀ a, s.countOf a = (s.setsOf a).length) ∧
      (s.accountForCommodity.length = s.total ∧
        sumValues s.totalForAccount = s.total) ∧
      (∀ a, StrictSorted (s.setsOf a) ∧ (s.setsOf a).Nodup) := by
  have hInv := reachable_inv cfg hash_of s h
  refine ⟨hInv.mem_iff, hInv.count_eq, ⟨hInv.len_eq, hInv.sum_eq⟩, ?_⟩
  intro a
  refine ⟨hInv.sorted a, ?_⟩
  exact List.Pairwise.imp (fun hlt => Nat.ne_of_lt hlt) (hInv.sorted a)

theorem claim1_witness :
    (∀ a id, id ∈ ledger1.setsOf a ↔ ledger1.ownerOpt id = some a) ∧
      (∀ a, ledger1.countOf a = (ledger1.setsOf a).length) ∧
      (ledger1.accountForCommodity.length = ledger1.total ∧
        sumValues ledger1.totalForAccount = ledger1.total) ∧
      (∀ a, StrictSorted (ledger1.setsOf a) ∧ (ledger1.setsOf a).Nodup) :=
  claim1_invariants cfgA hashId ledger1
    (Reachable.mint Ledger.empty 1 7 7 ledger1 Reachable.empty (by decide))

/-- C2: `mint` fails `CommodityExists` when the derived id already exists,
otherwise `TooManyCommoditiesForAccount` when the owner is at the user cap,
otherwise `TooManyCommodities` when the total is at the global cap — in that
precedence order — and every failure returns the input ledger unchanged. -/
theorem claim2_mint_errors (cfg : Config) (hash_of : Nat → Nat) (s : Ledger)
    (owner info : Nat) :
    ((s.ownerOpt (hash_of info)).isSome = true →
      mint cfg hash_of s owner info = (.error .CommodityExists, s)) ∧
      (s.ownerOpt (hash_of info) = none →
        ¬ s.countOf owner < cfg.userCommodityLimit →
        mint cfg hash_of s owner info =
          (.error .TooManyCommoditiesForAccount, s)) ∧
      (s.ownerOpt (hash_of info) = none →
        s.countOf owner < cfg.userCommodityLimit →
        ¬ s.total < cfg.commodityLimit →
        mint cfg hash_of s owner info = (.error .TooManyCommodities, s)) ∧
      (∀ e, (mint cfg hash_of s owner info).1 = .error e →
        (mint cfg hash_of s owner info).2 = s) := by
  refine ⟨?_, ?_, ?_, ?_⟩
  · intro h1
    rw [Ledger.ownerOpt] at h1
    simp [mint, h1]
  · intro h1 h2
    rw [Ledger.ownerOpt] at h1
    simp [mint, h1, h2]
  · intro h1 h2 h3
    rw [Ledger.ownerOpt] at h1
    simp [mint, h1, h2, h3]
  · intro e he
    by_cases h1 : (alookup s.accountForCommodity (hash_of info)).isSome
    · simp [mint, h1]
    · by_cases h2 : s.countOf owner < cfg.userCommodityLimit
      · by_cases h3 : s.total < cfg.commodityLimit
        · simp [mint, h1, h2, h3] at he
        · simp [mint, h1, h2, h3]
      · simp [mint, h1, h2]

theorem claim2_witness :
    mint cfgA hashId ledger1 1 7 = (.error .CommodityExists, ledger1) ∧
      mint cfgA hashId ledger2 1 9 =
        (.error .TooManyCommoditiesForAccount, ledger2) ∧
      mint cfgT1 hashId ledgerT1 2 9 =
        (.error .TooManyCommodities, ledgerT1) :=
  ⟨(claim2_mint_errors cfgA hashId ledger1 1 7).1 (by decide),
   (claim2_mint_errors cfgA hashId ledger2 1 9).2.1 (by decide) (by decide),
   (claim2_mint_errors cfgT1 hashId ledgerT1 2 9).2.2.1 (by decide)
     (by decide) (by decide)⟩

/-- C3: a successful `mint(owner, info)` returns the hash-derived id,
increments the total, increments the owner's count, inserts the id into the
owner's vector at its sorted position, and records the owner in the
id-to-owner map. -/
theorem claim3_mint_success (cfg : Config) (hash_of : Nat → Nat) (s : Ledger)
    (owner info id : Nat) (s' : Ledger)
    (hm : mint cfg hash_of s owner info = (.ok id, s')) :
    id = hash_of info ∧ s'.total = s.total + 1 ∧
      s'.countOf owner = s.countOf owner + 1 ∧
      s'.setsOf owner = sortedInsert (s.setsOf owner) id ∧
      s'.owner_of id = owner := by
  obtain ⟨hid, hnone, hcnt, htot, hs'⟩ := mint_ok_elim _ _ _ _ _ _ _ hm
  subst hs'
  refine ⟨hid, rfl, mintApply_countOf_self s owner id,
    mintApply_setsOf_self s owner id, ?_⟩
  rw [Ledger.owner_of, mintApply_ownerOpt_self]
  rfl

theorem claim3_witness :
    (7 : Nat) = hashId 7 ∧ ledger1.total = Ledger.empty.total + 1 ∧
      ledger1.countOf 1 = Ledger.empty.countOf 1 + 1 ∧
      ledger1.setsOf 1 = sortedInsert (Ledger.empty.setsOf 1) 7 ∧
      ledger1.owner_of 7 = 1 :=
  claim3_mint_success cfgA hashId Ledger.empty 1 7 7 ledger1 (by decide)

/-- C4 counterexample: with `UserCommodityLimit = 1`, account `1` owns
commodity `7` and sits at the cap; its self-transfer is rejected with
`TooManyCommoditiesForAccount` because `transfer` checks the destination's
count before decrementing the source — so a self-transfer does *not*
succeed "regardless of the owner's current holdings". -/
theorem claim4_counterexample :
    ledgerU1.owner_of 7 = 1 ∧
      transfer cfgU1 ledgerU1 1 7 =
        some (.error .TooManyCommoditiesForAccount, ledgerU1) := by decide

/-- C4 (amended): a self-transfer of an existing commodity succeeds and
leaves the whole ledger unchanged, provided the owner is not the sentinel
default account and is strictly below the per-account cap. -/
theorem claim4_self_transfer (cfg : Config) (hash_of : Nat → Nat)
    (s : Ledger) (a id : Nat) (hre : Reachable cfg hash_of s)
    (hown : s.owner_of id = a) (ha : a ≠ ACCOUNT_DEFAULT)
    (hcap : s.countOf a < cfg.userCommodityLimit) :
    transfer cfg s a id = some (.ok (), s) := by
  subst hown
  exact transfer_self_noop cfg s id (reachable_inv cfg hash_of s hre) ha hcap

theorem claim4_witness :
    transfer cfgA ledger1 1 7 = some (.ok (), ledger1) :=
  claim4_self_transfer cfgA hashId ledger1 1 7
    (Reachable.mint Ledger.empty 1 7 7 ledger1 Reachable.empty (by decide))
    (by decide) (by decide) (by decide)

/-- C5 counterexample: `owner_of` does *not* report absence explicitly: on
the empty ledger, where id `99` has no entry at all, the getter returns the
default account value `ACCOUNT_DEFAULT = 0` — a value that can coincide
with a real account (the tests sign transactions as account `0`). -/
theorem claim5_counterexample :
    Ledger.empty.ownerOpt 99 = none ∧
      Ledger.empty.owner_of 99 = ACCOUNT_DEFAULT := by decide

/-- C5 (amended): the `owner_of` query reports absence with the sentinel
default account value, not an explicit optional result: it returns
`ACCOUNT_DEFAULT` exactly when the id is absent from storage or is owned by
the default account itself. -/
theorem claim5_sentinel (s : Ledger) (id : Nat) :
    (s.ownerOpt id = none → s.owner_of id = ACCOUNT_DEFAULT) ∧
      (s.owner_of id = ACCOUNT_DEFAULT ↔
        s.ownerOpt id = none ∨ s.ownerOpt id = some ACCOUNT_DEFAULT) := by
  rcases h : s.ownerOpt id with _ | a
  · simp [Ledger.owner_of, h]
  · simp [Ledger.owner_of, h]

theorem claim5_witness :
    (Ledger.empty.ownerOpt 42 = none →
      Ledger.empty.owner_of 42 = ACCOUNT_DEFAULT) ∧
      (Ledger.empty.owner_of 42 = ACCOUNT_DEFAULT ↔
        Ledger.empty.ownerOpt 42 = none ∨
          Ledger.empty.ownerOpt 42 = some ACCOUNT_DEFAULT) :=
  claim5_sentinel Ledger.empty 42

/-- C6 counterexample: commodity `7` was minted to the default account `0`,
so it *is* present in the id-to-owner map, yet `burn` rejects it with
`NonexistentCommodity` because the existence check compares the stored
owner against the sentinel default value. -/
theorem claim6_counterexample :
    ledger0.ownerOpt 7 = some 0 ∧
      burn ledger0 7 = some (.error .NonexistentCommodity, ledger0) := by
  decide

/-- C6 (amended): in every reachable state, `burn(id)` fails with
`NonexistentCommodity` — leaving the ledger unchanged — exactly when the
`owner_of` getter yields the sentinel default account (the id is absent,
or owned by the default account itself); for every id owned by a
non-default account, `burn` succeeds. -/
theorem claim6_burn (cfg : Config) (hash_of : Nat → Nat) (s : Ledger)
    (id : Nat) (hre : Reachable cfg hash_of s) :
    (s.owner_of id = ACCOUNT_DEFAULT →
      burn s id = some (.error .NonexistentCommodity, s)) ∧
      (s.owner_of id ≠ ACCOUNT_DEFAULT →
        ∃ s', burn s id = some (.ok (), s')) := by
  have hInv := reachable_inv cfg hash_of s hre
  refine ⟨burn_err_of_sentinel s id, ?_⟩
  intro h1
  have hOpt : s.ownerOpt id = some (s.owner_of id) :=
    ownerOpt_of_owner_of_ne _ _ h1
  have hmem : id ∈ s.setsOf (s.owner_of id) :=
    (hInv.mem_iff (s.owner_of id) id).mpr hOpt
  obtain ⟨rest, hr⟩ :=
    sortedRemove?_isSome _ _ (hInv.sorted (s.owner_of id)) hmem
  exact ⟨burnApply s (s.owner_of id) id rest, burn_ok_intro s id rest h1 hr⟩

theorem claim6_witness :
    burn ledger1 99 = some (.error .NonexistentCommodity, ledger1) ∧
      ∃ s', burn ledger1 7 = some (.ok (), s') :=
  ⟨(claim6_burn cfgA hashId ledger1 99
      (Reachable.mint Ledger.empty 1 7 7 ledger1 Reachable.empty
        (by decide))).1 (by decide),
   (claim6_burn cfgA hashId ledger1 7
      (Reachable.mint Ledger.empty 1 7 7 ledger1 Reachable.empty
        (by decide))).2 (by decide)⟩

/-- C7: a successful `transfer(dest, id)` leaves `total` and `burned`
unchanged, leaves every account other than the previous owner and `dest`
with its count and ordered commodity vector untouched, and changes the
id-to-owner map only at `id`. -/
theorem claim7_transfer_frame (cfg : Config) (s : Ledger) (dest id : Nat)
    (s' : Ledger) (ht : transfer cfg s dest id = some (.ok (), s')) :
    s'.total = s.total ∧ s'.burned = s.burned ∧
      (∀ a, a ≠ s.owner_of id → a ≠ dest →
        s'.countOf a = s.countOf a ∧ s'.setsOf a = s.setsOf a) ∧
      (∀ jd, jd ≠ id → s'.ownerOpt jd = s.ownerOpt jd) := by
  obtain ⟨hown, hcap, rest, hr, hs'⟩ := transfer_ok_elim _ _ _ _ _ ht
  subst hs'
  refine ⟨transferApply_total _ _ _ _ _, transferApply_burned _ _ _ _ _,
    ?_, ?_⟩
  · intro a h1 h2
    exact ⟨transferApply_countOf_ne _ _ _ _ _ _ h1 h2,
      transferApply_setsOf_ne _ _ _ _ _ _ h1 h2⟩
  · intro jd hj
    exact transferApply_ownerOpt_ne _ _ _ _ _ _ hj

theorem claim7_witness :
    ledgerC.total = ledger1.total ∧ ledgerC.burned = ledger1.burned ∧
      (∀ a, a ≠ ledger1.owner_of 7 → a ≠ 2 →
        ledgerC.countOf a = ledger1.countOf a ∧
          ledgerC.setsOf a = ledger1.setsOf a) ∧
      (∀ jd, jd ≠ 7 → ledgerC.ownerOpt jd = ledger1.ownerOpt jd) :=
  claim7_transfer_frame cfgA ledger1 2 7 ledgerC (by decide)

/-- C9: in every reachable state the binary-search removal inside `burn`
and `transfer` always finds the id in the looked-up owner's ordered vector:
the `expect` panic branch (modelled as `none`) is unreachable. -/
theorem claim9_no_panic (cfg : Config) (hash_of : Nat → Nat) (s : Ledger)
    (id : Nat) (hre : Reachable cfg hash_of s) :
    burn s id ≠ none ∧ ∀ dest, transfer cfg s dest id ≠ none := by
  have hInv := reachable_inv cfg hash_of s hre
  by_cases h1 : s.owner_of id = ACCOUNT_DEFAULT
  · refine ⟨?_, ?_⟩
    · rw [burn_err_of_sentinel s id h1]
      exact Option.noConfusion
    · intro dest
      rw [transfer_err_of_sentinel cfg s dest id h1]
      exact Option.noConfusion
  · have hOpt : s.ownerOpt id = some (s.owner_of id) :=
      ownerOpt_of_owner_of_ne _ _ h1
    have hmem : id ∈ s.setsOf (s.owner_of id) :=
      (hInv.mem_iff (s.owner_of id) id).mpr hOpt
    obtain ⟨rest, hr⟩ :=
      sortedRemove?_isSome _ _ (hInv.sorted (s.owner_of id)) hmem
    refine ⟨?_, ?_⟩
    · rw [burn_ok_intro s id rest h1 hr]
      exact Option.noConfusion
    · intro dest
      by_cases h2 : s.countOf dest < cfg.userCommodityLimit
      · rw [transfer_ok_intro cfg s dest id rest h1 h2 hr]
        exact Option.noConfusion
      · rw [transfer_err_of_cap cfg s dest id h1 h2]
        exact Option.noConfusion

theorem claim9_witness :
    burn ledger1 7 ≠ none ∧ ∀ dest, transfer cfgA ledger1 dest 7 ≠ none :=
  claim9_no_panic cfgA hashId ledger1 7
    (Reachable.mint Ledger.empty 1 7 7 ledger1 Reachable.empty (by decide))

/-- C10: in every state reachable from the empty ledger, the configured
caps hold: the live total never exceeds `CommodityLimit` and no account's
count ever exceeds `UserCommodityLimit`. -/
theorem claim10_caps (cfg : Config) (hash_of : Nat → Nat) (s : Ledger)
    (hre : Reachable cfg hash_of s) :
    s.total ≤ cfg.commodityLimit ∧
      ∀ a, s.countOf a ≤ cfg.userCommodityLimit := by
  have hInv := reachable_inv cfg hash_of s hre
  exact ⟨hInv.total_cap, hInv.count_cap⟩

theorem claim10_witness :
    ledger2.total ≤ cfgA.commodityLimit ∧
      ∀ a, ledger2.countOf a ≤ cfgA.userCommodityLimit :=
  claim10_caps cfgA hashId ledger2
    (Reachable.mint ledger1 1 8 8 ledger2
      (Reachable.mint Ledger.empty 1 7 7 ledger1 Reachable.empty (by decide))
      (by decide))

/-- C8 counterexample: account `1` owns commodity `7`; transferring it to
the default account `0` succeeds, but the return transfer is rejected with
`NonexistentCommodity` (the stored owner now coincides with the sentinel),
so the round trip does not restore the original state for `B = 0`. -/
theorem claim8_counterexample :
    ledger1.owner_of 7 = 1 ∧
      transfer cfgA ledger1 0 7 = some (.ok (), ledgerB) ∧
      transfer cfgA ledgerB 1 7 =
        some (.error .NonexistentCommodity, ledgerB) := by decide

/-- C8 (amended): in a reachable state where `A` owns `id`, if
`transfer(B, id)` succeeds and `B` is not the sentinel default account,
then `transfer(A, id)` succeeds afterwards and restores `A`'s exact sorted
vector and both accounts' counts, with `total` and `burned` unchanged
throughout. -/
theorem claim8_round_trip (cfg : Config) (hash_of : Nat → Nat) (s : Ledger)
    (A B id : Nat) (s2 : Ledger) (hre : Reachable cfg hash_of s)
    (hA : s.owner_of id = A) (hB : B ≠ ACCOUNT_DEFAULT)
    (ht : transfer cfg s B id = some (.ok (), s2)) :
    ∃ s3, transfer cfg s2 A id = some (.ok (), s3) ∧
      s3.setsOf A = s.setsOf A ∧ s3.countOf A = s.countOf A ∧
      s3.countOf B = s.countOf B ∧ s2.total = s.total ∧
      s3.total = s.total ∧ s2.burned = s.burned ∧ s3.burned = s.burned := by
  have hInv := reachable_inv cfg hash_of s hre
  have hInv2 := transfer_inv cfg s B id s2 hInv ht
  obtain ⟨hown, hcap, rest, hr, hs2⟩ := transfer_ok_elim _ _ _ _ _ ht
  rw [hA] at hown hr hs2
  have hOpt : s.ownerOpt id = some A := by
    rw [← hA]
    exact ownerOpt_of_owner_of_ne _ _ (by rw [hA]; exact hown)
  have hmem : id ∈ s.setsOf A := (hInv.mem_iff A id).mpr hOpt
  have hsorted := hInv.sorted A
  have hc1 : 1 ≤ s.countOf A := by
    have h1 := hInv.count_eq A
    have h2 := List.length_pos.mpr (List.ne_nil_of_mem hmem)
    omega
  by_cases hAB : A = B
  · subst hAB
    rw [← hA] at ht
    rw [transfer_self_noop cfg s id hInv (by rw [hA]; exact hown)
      (by rw [hA]; exact hcap)] at ht
    simp at ht
    refine ⟨s, ?_, rfl, rfl, rfl, by rw [← ht], rfl, by rw [← ht], rfl⟩
    rw [← ht, ← hA]
    exact transfer_self_noop cfg s id hInv (by rw [hA]; exact hown)
      (by rw [hA]; exact hcap)
  · subst hs2
    have hBA : B ≠ A := fun h => hAB h.symm
    have hOpt2 : (transferApply s A B id rest).ownerOpt id = some B :=
      transferApply_ownerOpt_self _ _ _ _ _
    have ho2 : (transferApply s A B id rest).owner_of id = B := by
      rw [Ledger.owner_of, hOpt2]
      rfl
    have hcA2 : (transferApply s A B id rest).countOf A =
        s.countOf A - 1 := transferApply_countOf_owner _ _ _ _ _ hAB
    have hcB2 : (transferApply s A B id rest).countOf B =
        s.countOf B + 1 := transferApply_countOf_dest _ _ _ _ _ hBA
    have hsA2 : (transferApply s A B id rest).setsOf A = rest :=
      transferApply_setsOf_owner _ _ _ _ _ hAB
    have hsB2 : (transferApply s A B id rest).setsOf B =
        sortedInsert (s.setsOf B) id := transferApply_setsOf_dest _ _ _ _ _ hBA
    have hguard1 : (transferApply s A B id rest).owner_of id ≠
        ACCOUNT_DEFAULT := by rw [ho2]; exact hB
    have hcapA := hInv.count_cap A
    have hguard2 : (transferApply s A B id rest).countOf A <
        cfg.userCommodityLimit := by rw [hcA2]; omega
    have hmem2 : id ∈ (transferApply s A B id rest).setsOf B := by
      rw [hsB2, mem_sortedInsert]
      exact Or.inl rfl
    obtain ⟨rest2, hr2⟩ :=
      sortedRemove?_isSome _ _ (hInv2.sorted B) hmem2
    have hr2w : sortedRemove?
        ((transferApply s A B id rest).setsOf
          ((transferApply s A B id rest).owner_of id)) id = some rest2 := by
      rw [ho2]
      exact hr2
    have hintro := transfer_ok_intro cfg (transferApply s A B id rest) A id
      rest2 hguard1 hguard2 hr2w
    rw [ho2] at hintro
    refine ⟨transferApply (transferApply s A B id rest) B A id rest2,
      hintro, ?_, ?_, ?_, rfl, rfl, rfl, rfl⟩
    · rw [transferApply_setsOf_dest _ _ _ _ _ hAB, hsA2,
        sortedInsert_sortedRemove? _ _ _ hsorted hr]
    · rw [transferApply_countOf_dest _ _ _ _ _ hAB, hcA2]
      omega
    · rw [transferApply_countOf_owner _ _ _ _ _ hBA, hcB2]
      omega

theorem claim8_witness :
    ∃ s3, transfer cfgA ledgerC 1 7 = some (.ok (), s3) ∧
      s3.setsOf 1 = ledger1.setsOf 1 ∧ s3.countOf 1 = ledger1.countOf 1 ∧
      s3.countOf 2 = ledger1.countOf 2 ∧ ledgerC.total = ledger1.total ∧
      s3.total = ledger1.total ∧ ledgerC.burned = ledger1.burned ∧
      s3.burned = ledger1.burned :=
  claim8_round_trip cfgA hashId ledger1 1 2 7 ledgerC
    (Reachable.mint Ledger.empty 1 7 7 ledger1 Reachable.empty (by decide))
    (by decide) (by decide) (by decide)
